import Mathlib

/-!
Shallow embedding of the font-resolution core of `urxvt.py` (gryf/urxvt-wrapper).

The embedding translates the Python source directly:
  * `pyLower`, `pyTrim`, `pySplit`, `pyJoin`, `pyIn` model the Python string
    operations `str.lower`, `str.strip`, `str.split(sep)`, `sep.join`, `in`;
  * Python dictionaries keyed by strings become association lists with
    first-match lookup (`dget`) and overwrite-or-append update (`dset`);
  * `_parse_style`, the per-line recording loop, `_get_all_suitable_fonts`,
    `Font.regular` / `Font.bold`, `_parse_fonts` and the `-fn`/`-fb` joins of
    `_make_command_args` are translated function by function;
  * the `subprocess.check_output(['fc-list'])` call and the IndexError that
    Python would raise on a malformed line are modelled with `Except Unit`;
    the class-level `_AVAILABLE_FONTS` cache becomes an explicit `FontState`.
-/

/-- Python `str.lower()` restricted to the code points the tool handles
(ASCII letters); character-wise lowering of the string. -/
def pyLower (s : String) : String := ⟨s.data.map Char.toLower⟩

/-- The characters Python `str.strip()` removes (ASCII whitespace). -/
def pyWhitespaceChar (c : Char) : Bool :=
  c == ' ' || c == '\t' || c == '\n' || c == '\r' || c == '\x0b' || c == '\x0c'

/-- Python `str.strip()`: drop whitespace from both ends. -/
def pyTrim (s : String) : String :=
  ⟨(((s.data.dropWhile pyWhitespaceChar).reverse).dropWhile pyWhitespaceChar).reverse⟩

/-- Does the first list occur at the head of the second one? -/
def startsWithL : List Char → List Char → Bool
  | [], _ => true
  | _ :: _, [] => false
  | a :: as, b :: bs => a == b && startsWithL as bs

/-- Occurrence of `needle` anywhere in `hay` (Python's `needle in hay`). -/
def containsSub : List Char → List Char → Bool
  | [], needle => startsWithL needle []
  | c :: rest, needle => startsWithL needle (c :: rest) || containsSub rest needle

/-- Python `needle in hay` on strings. -/
def pyIn (needle hay : String) : Bool := containsSub hay.data needle.data

/-- Worker for `pySplit`; `fuel` dominates the length of the remaining input,
so the fuel-exhausted branch is never reached from `pySplit`. -/
def splitOnFuel (sep : List Char) : Nat → List Char → List Char → List (List Char)
  | 0, l, acc => [acc.reverse ++ l]
  | _ + 1, [], acc => [acc.reverse]
  | fuel + 1, c :: rest, acc =>
    if startsWithL sep (c :: rest) then
      acc.reverse :: splitOnFuel sep fuel (List.drop (sep.length - 1) rest) []
    else
      splitOnFuel sep fuel rest (c :: acc)

/-- Python `s.split(sep)` for a non-empty separator: split at every
leftmost non-overlapping occurrence; always returns at least one part. -/
def pySplit (s sep : String) : List String :=
  if sep.data.isEmpty then [s]
  else (splitOnFuel sep.data (s.data.length + 1) s.data []).map (fun l => ⟨l⟩)

/-- Python `sep.join(xs)`. -/
def pyJoin (sep : String) : List String → String
  | [] => ""
  | [x] => x
  | x :: y :: rest => x ++ sep ++ pyJoin sep (y :: rest)

/-- Lookup in a string-keyed dictionary (`d.get(k)`). -/
def dget : List (String × String) → String → Option String
  | [], _ => none
  | p :: rest, key => if p.1 = key then some p.2 else dget rest key

/-- Update of a string-keyed dictionary (`d[k] = v`). -/
def dset : List (String × String) → String → String → List (String × String)
  | [], key, v => [(key, v)]
  | p :: rest, key, v => if p.1 = key then (key, v) :: rest else p :: dset rest key v

/-- Python truthiness test `not d.get(k)`: absent key or empty-string value. -/
def falsyS : Option String → Bool
  | none => true
  | some s => decide (s = "")

/-- The two mappings held in `Font._AVAILABLE_FONTS`. -/
structure Catalog where
  regular : List (String × String)
  bold : List (String × String)
deriving DecidableEq

/-- `Font._REGULAR`: ordered aliases counting as a regular style. -/
def _REGULAR : List String := ["regular", "normal", "book", "medium"]

/-- Inner loop of `_parse_style`: first style token whose lowered form
equals `al`. -/
def findExact (al : String) : List String → Option String
  | [] => none
  | s :: rest => if pyLower s = al then some s else findExact al rest

/-- Outer loop of `_parse_style` over the regular aliases: for each al in
order, if it occurs in the lowered concatenation of the style tokens, return
the first token exactly equal to it; if no token matches exactly, continue
with the next al. -/
def parseStyleRegular (styles : List String) : List String → Option String
  | [] => none
  | al :: rest =>
    if pyIn al (pyLower (pyJoin "" styles)) then
      match findExact al styles with
      | some s => some s
      | none => parseStyleRegular styles rest
    else parseStyleRegular styles rest

/-- `Font._parse_style`: regular aliases first, then `"bold"`, else nothing. -/
def _parse_style (styles : List String) : Option String :=
  match parseStyleRegular styles _REGULAR with
  | some s => some s
  | none =>
    if pyIn "bold" (pyLower (pyJoin "" styles)) then findExact "bold" styles
    else none

/-- One iteration of the recording loop of `_get_all_suitable_fonts`:
record `style` for `name` into the bold dictionary when `style` lowers to
`"bold"` and the name has no (truthy) bold entry, otherwise into the regular
dictionary when the name has no (truthy) regular entry, otherwise no change. -/
def recordName (style name : String) (c : Catalog) : Catalog :=
  if pyLower style = "bold" ∧ falsyS (dget c.bold name) = true then
    { c with bold := dset c.bold name style }
  else if pyLower style ≠ "bold" ∧ falsyS (dget c.regular name) = true then
    { c with regular := dset c.regular name style }
  else c

/-- The `for name in font_names` loop, left to right. -/
def recordAll (style : String) : List String → Catalog → Catalog
  | [], c => c
  | n :: rest, c => recordAll style rest (recordName style n c)

/-- Extraction phase of the per-line processing in `_get_all_suitable_fonts`:
`Except.ok none` models `continue` (blank line or missing markers),
`Except.error ()` models the IndexError Python would raise when an indexed
split part is missing, and `Except.ok (some (names, styles))` carries the
trimmed font names and style tokens. -/
def extractLine (l : String) : Except Unit (Option (List String × List String)) :=
  if l = "" then Except.ok none
  else if pyIn ": " l = false then Except.ok none
  else if pyIn ":style=" l = false then Except.ok none
  else
    match (pySplit l ": ").get? 1 with
    | none => Except.error ()
    | some l2 =>
      match (pySplit l2 ":style=").get? 1 with
      | none => Except.error ()
      | some stylePart =>
        let names := (pySplit ((pySplit l2 ":").headD "") ",").map pyTrim
        let styles := (pySplit stylePart ",").map pyTrim
        Except.ok (some (names, styles))

/-- Processing of a single catalog line: extract, classify, record. -/
def processLine (c : Catalog) (l : String) : Except Unit Catalog :=
  match extractLine l with
  | Except.error e => Except.error e
  | Except.ok none => Except.ok c
  | Except.ok (some (names, styles)) =>
    match _parse_style styles with
    | none => Except.ok c
    | some style => Except.ok (recordAll style names c)

/-- The `for line in out` loop. -/
def processLines : Catalog → List String → Except Unit Catalog
  | c, [] => Except.ok c
  | c, l :: rest =>
    match processLine c l with
    | Except.error e => Except.error e
    | Except.ok c2 => processLines c2 rest

/-- Strict lexicographic order on the character lists of two strings,
by code point, as Python compares strings. -/
def charListLt : List Char → List Char → Bool
  | [], [] => false
  | [], _ :: _ => true
  | _ :: _, [] => false
  | a :: as, b :: bs => a < b || (a == b && charListLt as bs)

/-- Insertion into a sorted list of lines. -/
def insertSorted (s : String) : List String → List String
  | [] => [s]
  | t :: rest =>
    if charListLt t.data s.data then t :: insertSorted s rest
    else s :: t :: rest

/-- Python `sorted` on a list of strings (insertion sort; the order is total,
so the result agrees with Python's sort). -/
def sortLines : List String → List String
  | [] => []
  | s :: rest => insertSorted s (sortLines rest)

/-- Parsing phase of `_get_all_suitable_fonts`, applied to the captured
standard output of the font-listing command: split into lines, sort, and
process each line starting from empty dictionaries. -/
def _get_all_suitable_fonts (out : String) : Except Unit Catalog :=
  processLines ⟨[], []⟩ (sortLines (pySplit out "\n"))

/-- The class-level cache `Font._AVAILABLE_FONTS`: `none` models the initial
empty (falsy) dictionary, `some c` the populated cache. -/
structure FontState where
  available : Option Catalog
deriving DecidableEq

/-- The whole of `_get_all_suitable_fonts` including the guard and the
external `fc-list` invocation. `fetch` is the outcome of
`subprocess.check_output(['fc-list'])`: `Except.error` when the command
cannot be run or exits non-zero. Returns the new cache state, the overall
outcome, and whether the external command was invoked. -/
def buildCached (st : FontState) (fetch : Except Unit String) :
    FontState × Except Unit Unit × Bool :=
  match st.available with
  | some _ => (st, Except.ok (), false)
  | none =>
    match fetch with
    | Except.error e => (st, Except.error e, true)
    | Except.ok out =>
      match _get_all_suitable_fonts out with
      | Except.error e => (st, Except.error e, true)
      | Except.ok cat => (⟨some cat⟩, Except.ok (), true)

/-- `Font.XFT_TEMPLATE % (name, style, size)`. -/
def XFT_TEMPLATE (name style : String) (size : Nat) : String :=
  "xft:" ++ name ++ ":style=" ++ style ++ ":pixelsize=" ++ toString size

/-- The `Font.regular` property, as a pure function of the catalog: look the
name up in the regular dictionary; on a missing or empty style return the
empty string, otherwise instantiate the XFT template. -/
def Font.regular (cat : Catalog) (name : String) (size : Nat) : String :=
  match dget cat.regular name with
  | none => ""
  | some style => if style = "" then "" else XFT_TEMPLATE name style size

/-- The `Font.bold` property, same contract against the bold dictionary. -/
def Font.bold (cat : Catalog) (name : String) (size : Nat) : String :=
  match dget cat.bold name with
  | none => ""
  | some style => if style = "" then "" else XFT_TEMPLATE name style size

/-- `ADDITIONAL_FONTS` from the module header. -/
def ADDITIONAL_FONTS : List String := ["Symbola", "Unifont Upper", "DejaVu Sans"]

/-- `DEFAULT_FONT` with the `URXVT_TTF` environment variable unset. -/
def DEFAULT_FONT : String := ""

/-- `DEFAULT_BITMAP` with the `URXVT_BMP` environment variable unset. -/
def DEFAULT_BITMAP : String := ""

/-- `Urxvt._parse_fonts`, reduced to the list of face names it constructs:
start from the supplementary fonts, prepend the single caller-supplied name
unchanged when it holds no comma, otherwise put the comma-separated
names, each trimmed, in front; finally prepend the bitmap font when the
bitmap option is set. -/
def parseFontNames (additional : List String) (bitmap : Bool) (bitmapFont : String)
    (font_string : String) : List String :=
  let font_faces :=
    if pyIn "," font_string then
      (pySplit font_string ",").map pyTrim ++ additional
    else
      font_string :: additional
  if bitmap then bitmapFont :: font_faces else font_faces

/-- `_parse_fonts` with the module-level constants in place. -/
def _parse_fonts (bitmap : Bool) (font_string : String) : List String :=
  parseFontNames ADDITIONAL_FONTS bitmap DEFAULT_BITMAP font_string

/-- The `-fn` argument built in `_make_command_args`: comma-join of the
non-empty regular directives, in list order. -/
def joinedRegular (cat : Catalog) (size : Nat) (names : List String) : String :=
  pyJoin "," ((names.map (fun n => Font.regular cat n size)).filter
    (fun s => decide (s ≠ "")))

/-- The `-fb` argument built in `_make_command_args`: comma-join of the
non-empty bold directives, in list order. -/
def joinedBold (cat : Catalog) (size : Nat) (names : List String) : String :=
  pyJoin "," ((names.map (fun n => Font.bold cat n size)).filter
    (fun s => decide (s ≠ "")))

/-- A catalog line contributes an entry for the name `n` exactly when it
parses to a field pair whose name list contains `n` and whose style list
classifies to some winning style. -/
def lineYieldsFor (n : String) (l : String) : Bool :=
  match extractLine l with
  | Except.ok (some (names, styles)) => decide (n ∈ names) && (_parse_style styles).isSome
  | _ => false

/-! ### Dictionary lemmas -/

theorem dget_dset_self (d : List (String × String)) (k v : String) :
    dget (dset d k v) k = some v := by
  induction d with
  | nil => simp [dset, dget]
  | cons p rest ih =>
    by_cases h : p.1 = k
    · simp [dset, h, dget]
    · simp [dset, h, dget, ih]

theorem dget_dset_ne (d : List (String × String)) (k v n : String) (h : k ≠ n) :
    dget (dset d k v) n = dget d n := by
  induction d with
  | nil => simp [dset, dget, h]
  | cons p rest ih =>
    by_cases hp : p.1 = k
    · simp [dset, hp, dget, h]
    · simp [dset, hp, dget, ih]

/-! ### Lemmas about the per-name recording step -/

theorem recordName_regular_preserved (style m : String) (c : Catalog) (n v : String)
    (hv : v ≠ "") (h : dget c.regular n = some v) :
    dget (recordName style m c).regular n = some v := by
  unfold recordName
  split
  · exact h
  · split
    · rename_i h2
      by_cases hmn : m = n
      · subst hmn
        rw [h] at h2
        exfalso
        have h3 := h2.2
        simp [falsyS, hv] at h3
      · rw [dget_dset_ne _ _ _ _ hmn]
        exact h
    · exact h

theorem recordName_bold_preserved (style m : String) (c : Catalog) (n v : String)
    (hv : v ≠ "") (h : dget c.bold n = some v) :
    dget (recordName style m c).bold n = some v := by
  unfold recordName
  split
  · rename_i h2
    by_cases hmn : m = n
    · subst hmn
      rw [h] at h2
      exfalso
      have h3 := h2.2
      simp [falsyS, hv] at h3
    · rw [dget_dset_ne _ _ _ _ hmn]
      exact h
  · split
    · exact h
    · exact h

theorem recordName_ne_regular (style m n : String) (c : Catalog) (h : m ≠ n) :
    dget (recordName style m c).regular n = dget c.regular n := by
  unfold recordName
  split
  · rfl
  · split
    · exact dget_dset_ne _ _ _ _ h
    · rfl

theorem recordName_ne_bold (style m n : String) (c : Catalog) (h : m ≠ n) :
    dget (recordName style m c).bold n = dget c.bold n := by
  unfold recordName
  split
  · exact dget_dset_ne _ _ _ _ h
  · split
    · rfl
    · rfl

theorem recordName_bold_unchanged (style m : String) (c : Catalog)
    (h : pyLower style ≠ "bold") : (recordName style m c).bold = c.bold := by
  unfold recordName
  split
  · rename_i h2
    exact absurd h2.1 h
  · split
    · rfl
    · rfl

theorem recordName_sets_regular (style m : String) (c : Catalog)
    (hs : pyLower style ≠ "bold") (hf : falsyS (dget c.regular m) = true) :
    dget (recordName style m c).regular m = some style := by
  unfold recordName
  split
  · rename_i h2
    exact absurd h2.1 hs
  · split
    · exact dget_dset_self _ _ _
    · rename_i h2 h3
      exact absurd ⟨hs, hf⟩ h3

/-! ### Lemmas about the recording loop over a line's names -/

theorem recordAll_regular_preserved (style : String) (names : List String) (c : Catalog)
    (n v : String) (hv : v ≠ "") (h : dget c.regular n = some v) :
    dget (recordAll style names c).regular n = some v := by
  induction names generalizing c with
  | nil => exact h
  | cons m rest ih => exact ih _ (recordName_regular_preserved style m c n v hv h)

theorem recordAll_bold_preserved (style : String) (names : List String) (c : Catalog)
    (n v : String) (hv : v ≠ "") (h : dget c.bold n = some v) :
    dget (recordAll style names c).bold n = some v := by
  induction names generalizing c with
  | nil => exact h
  | cons m rest ih => exact ih _ (recordName_bold_preserved style m c n v hv h)

theorem recordAll_ne_regular (style : String) (names : List String) (c : Catalog)
    (n : String) (h : n ∉ names) :
    dget (recordAll style names c).regular n = dget c.regular n := by
  induction names generalizing c with
  | nil => rfl
  | cons m rest ih =>
    have hmn : m ≠ n := fun hx => h (hx ▸ List.mem_cons_self m rest)
    have hrest : n ∉ rest := fun hx => h (List.mem_cons_of_mem m hx)
    simp only [recordAll]
    rw [ih _ hrest, recordName_ne_regular style m n c hmn]

theorem recordAll_ne_bold (style : String) (names : List String) (c : Catalog)
    (n : String) (h : n ∉ names) :
    dget (recordAll style names c).bold n = dget c.bold n := by
  induction names generalizing c with
  | nil => rfl
  | cons m rest ih =>
    have hmn : m ≠ n := fun hx => h (hx ▸ List.mem_cons_self m rest)
    have hrest : n ∉ rest := fun hx => h (List.mem_cons_of_mem m hx)
    simp only [recordAll]
    rw [ih _ hrest, recordName_ne_bold style m n c hmn]

theorem recordAll_bold_unchanged (style : String) (names : List String) (c : Catalog)
    (h : pyLower style ≠ "bold") : (recordAll style names c).bold = c.bold := by
  induction names generalizing c with
  | nil => rfl
  | cons m rest ih =>
    simp only [recordAll]
    rw [ih _, recordName_bold_unchanged style m c h]

theorem recordAll_sets_regular (style n : String) (hs : pyLower style ≠ "bold")
    (hne : style ≠ "") :
    ∀ (names : List String) (c : Catalog), n ∈ names →
      falsyS (dget c.regular n) = true →
      dget (recordAll style names c).regular n = some style := by
  intro names
  induction names with
  | nil =>
    intro c hmem
    cases hmem
  | cons m rest ih =>
    intro c hmem hf
    simp only [recordAll]
    by_cases hmn : m = n
    · subst hmn
      exact recordAll_regular_preserved style rest (recordName style m c) m style hne
        (recordName_sets_regular style m c hs hf)
    · have hrest : n ∈ rest := by
        cases hmem with
        | head => exact absurd rfl hmn
        | tail _ hh => exact hh
      have hf2 : falsyS (dget (recordName style m c).regular n) = true := by
        rw [recordName_ne_regular style m n c hmn]
        exact hf
      exact ih (recordName style m c) hrest hf2

/-! ### Lemmas about line processing -/

theorem processLine_preserved (c c' : Catalog) (l : String) (n v : String) (hv : v ≠ "")
    (h : processLine c l = Except.ok c') :
    (dget c.regular n = some v → dget c'.regular n = some v) ∧
    (dget c.bold n = some v → dget c'.bold n = some v) := by
  cases hE : extractLine l with
  | error e => simp [processLine, hE] at h
  | ok o =>
    cases o with
    | none =>
      simp [processLine, hE] at h
      subst h
      exact ⟨id, id⟩
    | some p =>
      obtain ⟨names, styles⟩ := p
      cases hP : _parse_style styles with
      | none =>
        simp [processLine, hE, hP] at h
        subst h
        exact ⟨id, id⟩
      | some style =>
        simp [processLine, hE, hP] at h
        subst h
        exact ⟨fun hr => recordAll_regular_preserved style names c n v hv hr,
               fun hb => recordAll_bold_preserved style names c n v hv hb⟩

theorem processLines_preserved (n v : String) (hv : v ≠ "") :
    ∀ (lines : List String) (c c' : Catalog), processLines c lines = Except.ok c' →
      (dget c.regular n = some v → dget c'.regular n = some v) ∧
      (dget c.bold n = some v → dget c'.bold n = some v) := by
  intro lines
  induction lines with
  | nil =>
    intro c c' h
    simp [processLines] at h
    subst h
    exact ⟨id, id⟩
  | cons l rest ih =>
    intro c c' h
    cases hL : processLine c l with
    | error e => simp [processLines, hL] at h
    | ok c2 =>
      simp [processLines, hL] at h
      have h1 := processLine_preserved c c2 l n v hv hL
      have h2 := ih c2 c' h
      exact ⟨fun hr => h2.1 (h1.1 hr), fun hb => h2.2 (h1.2 hb)⟩

theorem processLine_absent (c c' : Catalog) (l n : String)
    (hy : lineYieldsFor n l = false) (h : processLine c l = Except.ok c') :
    dget c'.regular n = dget c.regular n ∧ dget c'.bold n = dget c.bold n := by
  cases hE : extractLine l with
  | error e => simp [processLine, hE] at h
  | ok o =>
    cases o with
    | none =>
      simp [processLine, hE] at h
      subst h
      exact ⟨rfl, rfl⟩
    | some p =>
      obtain ⟨names, styles⟩ := p
      cases hP : _parse_style styles with
      | none =>
        simp [processLine, hE, hP] at h
        subst h
        exact ⟨rfl, rfl⟩
      | some style =>
        simp [processLine, hE, hP] at h
        subst h
        have hnm : n ∉ names := by
          simp [lineYieldsFor, hE, hP] at hy
          exact hy
        exact ⟨recordAll_ne_regular style names c n hnm,
               recordAll_ne_bold style names c n hnm⟩

theorem processLines_absent (n : String) :
    ∀ (lines : List String) (c c' : Catalog), processLines c lines = Except.ok c' →
      (∀ l ∈ lines, lineYieldsFor n l = false) →
      dget c'.regular n = dget c.regular n ∧ dget c'.bold n = dget c.bold n := by
  intro lines
  induction lines with
  | nil =>
    intro c c' h _
    simp [processLines] at h
    subst h
    exact ⟨rfl, rfl⟩
  | cons l rest ih =>
    intro c c' h hall
    cases hL : processLine c l with
    | error e => simp [processLines, hL] at h
    | ok c2 =>
      simp [processLines, hL] at h
      have h1 := processLine_absent c c2 l n (hall l (List.mem_cons_self l rest)) hL
      have h2 := ih c2 c' h (fun x hx => hall x (List.mem_cons_of_mem l hx))
      exact ⟨h2.1.trans h1.1, h2.2.trans h1.2⟩

/-! ### Membership facts about the line sort -/

theorem mem_insertSorted (a s : String) (l : List String) (h : a ∈ insertSorted s l) :
    a = s ∨ a ∈ l := by
  induction l with
  | nil =>
    simp [insertSorted] at h
    exact Or.inl h
  | cons t rest ih =>
    simp only [insertSorted] at h
    split at h
    · rcases List.mem_cons.mp h with h1 | h1
      · exact Or.inr (h1 ▸ List.mem_cons_self t rest)
      · rcases ih h1 with h2 | h2
        · exact Or.inl h2
        · exact Or.inr (List.mem_cons_of_mem t h2)
    · rcases List.mem_cons.mp h with h1 | h1
      · exact Or.inl h1
      · exact Or.inr h1

theorem mem_sortLines (a : String) : ∀ l : List String, a ∈ sortLines l → a ∈ l := by
  intro l
  induction l with
  | nil =>
    intro h
    simp [sortLines] at h
  | cons s rest ih =>
    intro h
    simp only [sortLines] at h
    rcases mem_insertSorted a s (sortLines rest) h with h1 | h1
    · exact h1 ▸ List.mem_cons_self s rest
    · exact List.mem_cons_of_mem s (ih h1)

/-! ### Substring facts used to analyse the style classifier -/

theorem startsWithL_append (n r : List Char) : startsWithL n (n ++ r) = true := by
  induction n with
  | nil => rfl
  | cons c cs ih => simp [startsWithL, ih]

theorem containsSub_of_startsWithL (hay n : List Char) (h : startsWithL n hay = true) :
    containsSub hay n = true := by
  cases hay with
  | nil =>
    simp only [containsSub]
    exact h
  | cons c rest => simp [containsSub, h]

theorem containsSub_append_right (a b n : List Char) (h : containsSub b n = true) :
    containsSub (a ++ b) n = true := by
  induction a with
  | nil => simpa using h
  | cons c cs ih =>
    simp only [List.cons_append, containsSub, Bool.or_eq_true]
    exact Or.inr ih

theorem containsSub_infix (A B n : List Char) : containsSub (A ++ (n ++ B)) n = true :=
  containsSub_append_right A (n ++ B) n
    (containsSub_of_startsWithL (n ++ B) n (startsWithL_append n B))

theorem pyJoin_data_mem (t : String) : ∀ styles : List String, t ∈ styles →
    ∃ A B, (pyJoin "" styles).data = A ++ (t.data ++ B) := by
  intro styles
  induction styles with
  | nil =>
    intro h
    cases h
  | cons x rest ih =>
    intro h
    cases rest with
    | nil =>
      have hx : t = x := by
        cases h with
        | head => rfl
        | tail _ h2 => cases h2
      subst hx
      exact ⟨[], [], by simp [pyJoin]⟩
    | cons y ys =>
      cases h with
      | head =>
        exact ⟨[], (pyJoin "" (y :: ys)).data, by simp [pyJoin, String.data_append]⟩
      | tail _ h2 =>
        obtain ⟨A, B, hAB⟩ := ih h2
        exact ⟨x.data ++ A, B, by simp [pyJoin, String.data_append, hAB]⟩

theorem pyIn_lower_join (t : String) (styles : List String) (h : t ∈ styles) :
    pyIn (pyLower t) (pyLower (pyJoin "" styles)) = true := by
  obtain ⟨A, B, hAB⟩ := pyJoin_data_mem t styles h
  show containsSub ((pyJoin "" styles).data.map Char.toLower)
    (t.data.map Char.toLower) = true
  rw [hAB]
  simp only [List.map_append]
  exact containsSub_infix _ _ _

/-! ### Facts about the style classifier -/

theorem findExact_lower (a : String) : ∀ (styles : List String) (r : String),
    findExact a styles = some r → pyLower r = a := by
  intro styles
  induction styles with
  | nil =>
    intro r h
    simp [findExact] at h
  | cons s rest ih =>
    intro r h
    simp only [findExact] at h
    split at h
    · rename_i hs
      cases h
      exact hs
    · exact ih r h

theorem findExact_mem_isSome (a t : String) : ∀ styles : List String, t ∈ styles →
    pyLower t = a → ∃ r, findExact a styles = some r := by
  intro styles
  induction styles with
  | nil =>
    intro ht
    cases ht
  | cons s rest ih =>
    intro ht hl
    simp only [findExact]
    by_cases hs : pyLower s = a
    · rw [if_pos hs]
      exact ⟨s, rfl⟩
    · rw [if_neg hs]
      cases ht with
      | head => exact absurd hl hs
      | tail _ h2 => exact ih h2 hl

theorem parseStyleRegular_mem (styles : List String) (t : String) (ht : t ∈ styles) :
    ∀ als : List String, pyLower t ∈ als →
      ∃ r, parseStyleRegular styles als = some r ∧ pyLower r ∈ als := by
  intro als
  induction als with
  | nil =>
    intro h
    cases h
  | cons a rest ih =>
    intro h
    simp only [parseStyleRegular]
    by_cases hta : pyLower t = a
    · have hin : pyIn a (pyLower (pyJoin "" styles)) = true := by
        rw [← hta]
        exact pyIn_lower_join t styles ht
      rw [hin]
      simp only [if_true]
      obtain ⟨r, hr⟩ := findExact_mem_isSome a t styles ht hta
      rw [hr]
      exact ⟨r, rfl, by
        rw [findExact_lower a styles r hr]
        exact List.mem_cons_self a rest⟩
    · have hrest : pyLower t ∈ rest := by
        cases List.mem_cons.mp h with
        | inl h1 => exact absurd h1 hta
        | inr h1 => exact h1
      cases hC : pyIn a (pyLower (pyJoin "" styles)) with
      | false =>
        simp only [hC, Bool.false_eq_true, if_false]
        obtain ⟨r, h1, h2⟩ := ih hrest
        exact ⟨r, h1, List.mem_cons_of_mem a h2⟩
      | true =>
        simp only [hC, if_true]
        cases hF : findExact a styles with
        | none =>
          obtain ⟨r, h1, h2⟩ := ih hrest
          exact ⟨r, h1, List.mem_cons_of_mem a h2⟩
        | some r =>
          refine ⟨r, rfl, ?_⟩
          rw [findExact_lower a styles r hF]
          exact List.mem_cons_self a rest

/-- The instantiated XFT template is never the empty string. -/
theorem xft_ne_empty (n s : String) (k : Nat) : XFT_TEMPLATE n s k ≠ "" := by
  intro h
  have h2 : (XFT_TEMPLATE n s k).data = "".data := by rw [h]
  simp [XFT_TEMPLATE, String.data_append] at h2

/-- C1, counterexample: building the catalog from the single line
`"f: Foo:style=Book,Bold"` (style token list `["Book", "Bold"]`) records only
the regular slot; the bold mapping has no entry for `"Foo"`, contradicting
the claim that it maps `"Foo"` to `"Bold"`. -/
theorem spec_c1_counterexample :
    _get_all_suitable_fonts "f: Foo:style=Book,Bold" =
      Except.ok (Catalog.mk [("Foo", "Book")] []) ∧
    dget (Catalog.mk [("Foo", "Book")] []).bold "Foo" = none :=
  ⟨rfl, rfl⟩

/-- C1, amended: for a catalog line whose style token list is
`["Book", "Bold"]`, classification yields the single winning style `"Book"`;
recording it maps every name on the line that had no (truthy) prior regular
entry to `"Book"` in the regular mapping, and leaves the bold mapping
entirely unchanged — the bold slot is not populated from that line. -/
theorem spec_c1_amended :
    _parse_style ["Book", "Bold"] = some "Book" ∧
    ∀ (names : List String) (c : Catalog),
      (recordAll "Book" names c).bold = c.bold ∧
      ∀ n ∈ names, falsyS (dget c.regular n) = true →
        dget (recordAll "Book" names c).regular n = some "Book" := by
  refine ⟨by decide, ?_⟩
  intro names c
  refine ⟨recordAll_bold_unchanged "Book" names c (by decide), ?_⟩
  intro n hn hf
  exact recordAll_sets_regular "Book" n (by decide) (by decide) names c hn hf

/-- C1, witness for the amended theorem at the line's data: name `"Foo"`,
empty prior catalog. -/
theorem spec_c1_witness :
    dget (recordAll "Book" ["Foo"] (Catalog.mk [] [])).regular "Foo" = some "Book" :=
  (spec_c1_amended.2 ["Foo"] (Catalog.mk [] [])).2 "Foo" (by decide) (by decide)

/-- C2, counterexample: for the style token list `["Bookish", "Bold"]` the
regular alias `"book"` appears as a substring of the lowered concatenation
`"bookishbold"`, yet `_parse_style` returns the bold token `"Bold"`, because
no token is exactly equal to `"book"`. -/
theorem spec_c2_counterexample :
    pyIn "book" (pyLower (pyJoin "" ["Bookish", "Bold"])) = true ∧
    _parse_style ["Bookish", "Bold"] = some "Bold" ∧
    pyLower "Bold" = "bold" := by
  decide

/-- C2, amended: `_parse_style` returns a bold classification only when no
style token is exactly (case-insensitively) equal to one of the regular
aliases; a regular alias appearing merely as a substring of the concatenation
does not prevent the bold result. In particular a style list containing both
`"Bold"` and `"Medium"` is classified as regular (`"Medium"`), never bold. -/
theorem spec_c2_amended :
    (∀ (styles : List String) (s t : String), _parse_style styles = some s →
      pyLower s = "bold" → t ∈ styles → pyLower t ∉ _REGULAR) ∧
    _parse_style ["Bold", "Medium"] = some "Medium" := by
  refine ⟨?_, by decide⟩
  intro styles s t hps hbold ht hmem
  obtain ⟨r, h1, h2⟩ := parseStyleRegular_mem styles t ht _REGULAR hmem
  simp only [_parse_style, h1] at hps
  cases hps
  rw [hbold] at h2
  simp [_REGULAR] at h2

/-- C2, witness for the amended theorem: `["Bold"]` classifies to the bold
token `"Bold"`, and indeed no token of it lowers to a regular alias. -/
theorem spec_c2_witness : pyLower "Bold" ∉ _REGULAR :=
  spec_c2_amended.1 ["Bold"] "Bold" "Bold" (by decide) (by decide) (by decide)

/-- C3, confirmed: a non-empty style recorded for a name in either slot is
left unchanged by the processing of every later catalog line (first-seen
wins), and each mapping assigns at most one style per name. -/
theorem spec_c3 :
    ∀ (lines : List String) (c c' : Catalog) (n v : String), v ≠ "" →
      processLines c lines = Except.ok c' →
      (dget c.regular n = some v → dget c'.regular n = some v) ∧
      (dget c.bold n = some v → dget c'.bold n = some v) ∧
      (∀ w w', dget c'.regular n = some w → dget c'.regular n = some w' → w = w') ∧
      (∀ w w', dget c'.bold n = some w → dget c'.bold n = some w' → w = w') := by
  intro lines c c' n v hv h
  have hp := processLines_preserved n v hv lines c c' h
  refine ⟨hp.1, hp.2, ?_, ?_⟩
  · intro w w' hw hw'
    rw [hw] at hw'
    cases hw'
    rfl
  · intro w w' hw hw'
    rw [hw] at hw'
    cases hw'
    rfl

/-- C3, witness: a catalog already mapping `"Foo"` to regular `"Book"` is
unchanged by a later candidate line offering `"Medium"` for `"Foo"`. -/
theorem spec_c3_witness :
    dget (Catalog.mk [("Foo", "Book")] []).regular "Foo" = some "Book" :=
  (spec_c3 ["g: Foo:style=Medium"] (Catalog.mk [("Foo", "Book")] [])
    (Catalog.mk [("Foo", "Book")] []) "Foo" "Book" (by decide) rfl).1 (by decide)

/-- C4, confirmed: when the external font-listing command cannot be run or
exits with failure, the cached catalog state is returned unchanged (still
unbuilt) and the error is propagated to the caller. -/
theorem spec_c4 (st : FontState) (e : Unit) (h : st.available = none) :
    buildCached st (Except.error e) = (st, Except.error e, true) := by
  simp [buildCached, h]

/-- C4, witness at the fresh (unbuilt) state. -/
theorem spec_c4_witness :
    buildCached ⟨none⟩ (Except.error ()) = (⟨none⟩, Except.error (), true) :=
  spec_c4 ⟨none⟩ () rfl

/-- C5, counterexample: for the (degenerate) style `s = ""` the claim fails:
with the regular mapping sending `"Foo"` to `""`, the accessor returns the
empty string because of the truthiness test, not the instantiated template. -/
theorem spec_c5_counterexample :
    dget (Catalog.mk [("Foo", "")] []).regular "Foo" = some "" ∧
    Font.regular (Catalog.mk [("Foo", "")] []) "Foo" 14 = "" ∧
    Font.regular (Catalog.mk [("Foo", "")] []) "Foo" 14 ≠
      "xft:" ++ "Foo" ++ ":style=" ++ "" ++ ":pixelsize=" ++ toString 14 := by
  decide

/-- C5, amended: for every font name `n`, non-empty style `s` and size `k`,
if the regular mapping sends `n` to `s` the regular accessor returns exactly
`"xft:" ++ n ++ ":style=" ++ s ++ ":pixelsize=" ++ k`; if the bold mapping
has no entry for `n` the bold accessor returns the empty string. Concretely,
with regular mapping `"Foo" to "Normal"`, empty bold mapping and size 14 the
accessors return the instantiated directive and the empty string. -/
theorem spec_c5_amended :
    (∀ (cat : Catalog) (n s : String) (k : Nat), dget cat.regular n = some s →
      s ≠ "" →
      Font.regular cat n k =
        "xft:" ++ n ++ ":style=" ++ s ++ ":pixelsize=" ++ toString k) ∧
    (∀ (cat : Catalog) (n : String) (k : Nat), dget cat.bold n = none →
      Font.bold cat n k = "") ∧
    Font.regular (Catalog.mk [("Foo", "Normal")] []) "Foo" 14 =
      "xft:Foo:style=Normal:pixelsize=14" ∧
    Font.bold (Catalog.mk [("Foo", "Normal")] []) "Foo" 14 = "" := by
  refine ⟨?_, ?_, by decide, by decide⟩
  · intro cat n s k h hs
    simp [Font.regular, h, hs, XFT_TEMPLATE]
  · intro cat n k h
    simp [Font.bold, h]

/-- C5, witness for the amended theorem at the concrete catalog of the claim. -/
theorem spec_c5_witness :
    Font.regular (Catalog.mk [("Foo", "Normal")] []) "Foo" 14 =
      "xft:" ++ "Foo" ++ ":style=" ++ "Normal" ++ ":pixelsize=" ++ toString 14 :=
  spec_c5_amended.1 (Catalog.mk [("Foo", "Normal")] []) "Foo" "Normal" 14
    (by decide) (by decide)

/-- C6, confirmed: if no line of the tool output yields an entry for the name
`n` (no line both lists `n` and classifies to a winning style), the built
catalog has no entry for `n` in either mapping and both accessors return the
empty string. -/
theorem spec_c6 :
    ∀ (out : String) (c' : Catalog) (n : String) (k : Nat),
      _get_all_suitable_fonts out = Except.ok c' →
      (∀ l ∈ pySplit out "\n", lineYieldsFor n l = false) →
      dget c'.regular n = none ∧ dget c'.bold n = none ∧
      Font.regular c' n k = "" ∧ Font.bold c' n k = "" := by
  intro out c' n k hb hl
  have habs := processLines_absent n (sortLines (pySplit out "\n")) ⟨[], []⟩ c' hb
    (fun l hm => hl l (mem_sortLines l (pySplit out "\n") hm))
  have hr : dget c'.regular n = none := by
    rw [habs.1]
    rfl
  have hbo : dget c'.bold n = none := by
    rw [habs.2]
    rfl
  exact ⟨hr, hbo, by simp [Font.regular, hr], by simp [Font.bold, hbo]⟩

/-- C6, witness: a two-line output whose lines classify for `"Bar"` only and
for nothing, while the requested name is `"Qux"`. -/
theorem spec_c6_witness :
    dget (Catalog.mk [("Bar", "Book")] []).regular "Qux" = none ∧
    dget (Catalog.mk [("Bar", "Book")] []).bold "Qux" = none ∧
    Font.regular (Catalog.mk [("Bar", "Book")] []) "Qux" 14 = "" ∧
    Font.bold (Catalog.mk [("Bar", "Book")] []) "Qux" 14 = "" :=
  spec_c6 "f: Bar:style=Book\ng: Qux:style=Italic" (Catalog.mk [("Bar", "Book")] [])
    "Qux" 14 rfl (by decide)

/-- C7, confirmed: with primary font string `"A,B"`, supplementary fonts
`["C", "D"]` and a catalog resolving regular styles (`sa`, `sd`) for `A` and
`D` only, the assembled name list is `["A", "B", "C", "D"]` in order, and the
joined regular directive is exactly the directive for `A`, a comma, and the
directive for `D` — the unresolved faces `B` and `C` are skipped with no
placeholder. -/
theorem spec_c7 :
    ∀ (sa sd : String) (k : Nat), sa ≠ "" → sd ≠ "" →
      parseFontNames ["C", "D"] false "" "A,B" = ["A", "B", "C", "D"] ∧
      joinedRegular (Catalog.mk [("A", sa), ("D", sd)] []) k ["A", "B", "C", "D"] =
        Font.regular (Catalog.mk [("A", sa), ("D", sd)] []) "A" k ++ "," ++
        Font.regular (Catalog.mk [("A", sa), ("D", sd)] []) "D" k := by
  intro sa sd k hsa hsd
  refine ⟨by decide, ?_⟩
  have hA : Font.regular (Catalog.mk [("A", sa), ("D", sd)] []) "A" k =
      XFT_TEMPLATE "A" sa k := by
    simp [Font.regular, dget, hsa]
  have hB : Font.regular (Catalog.mk [("A", sa), ("D", sd)] []) "B" k = "" := by
    simp [Font.regular, dget]
  have hC : Font.regular (Catalog.mk [("A", sa), ("D", sd)] []) "C" k = "" := by
    simp [Font.regular, dget]
  have hD : Font.regular (Catalog.mk [("A", sa), ("D", sd)] []) "D" k =
      XFT_TEMPLATE "D" sd k := by
    simp [Font.regular, dget, hsd]
  simp [joinedRegular, hA, hB, hC, hD, List.filter_cons, xft_ne_empty, pyJoin]

/-- C7, witness at the concrete styles `"Book"` and `"Medium"` and size 14. -/
theorem spec_c7_witness :
    parseFontNames ["C", "D"] false "" "A,B" = ["A", "B", "C", "D"] ∧
    joinedRegular (Catalog.mk [("A", "Book"), ("D", "Medium")] []) 14
        ["A", "B", "C", "D"] =
      Font.regular (Catalog.mk [("A", "Book"), ("D", "Medium")] []) "A" 14 ++ "," ++
      Font.regular (Catalog.mk [("A", "Book"), ("D", "Medium")] []) "D" 14 :=
  spec_c7 "Book" "Medium" 14 (by decide) (by decide)

/-- C8, confirmed: after any successful invocation of the cached catalog
build, a second invocation returns the identical cache state (bit-identical
mappings), succeeds, and does not invoke the external font-listing command
again (the guard makes it a no-op), so the command runs at most once across
the cache's lifetime. -/
theorem spec_c8 :
    ∀ (st0 st1 : FontState) (fetch fetch' : Except Unit String) (u : Unit) (b : Bool),
      buildCached st0 fetch = (st1, Except.ok u, b) →
      buildCached st1 fetch' = (st1, Except.ok (), false) := by
  intro st0 st1 fetch fetch' u b h
  cases hA : st0.available with
  | some cat =>
    simp [buildCached, hA] at h
    obtain ⟨h1, h2⟩ := h
    rw [← h1]
    simp [buildCached, hA]
  | none =>
    cases fetch with
    | error e => simp [buildCached, hA] at h
    | ok out =>
      cases hG : _get_all_suitable_fonts out with
      | error e => simp [buildCached, hA, hG] at h
      | ok cat =>
        simp [buildCached, hA, hG] at h
        obtain ⟨h1, h2⟩ := h
        rw [← h1]
        simp [buildCached]

/-- C8, witness: a successful first build from a one-line output, then a
second invocation returning the same state without running the command. -/
theorem spec_c8_witness :
    buildCached ⟨some (Catalog.mk [("Foo", "Book")] [])⟩ (Except.ok "") =
      (⟨some (Catalog.mk [("Foo", "Book")] [])⟩, Except.ok (), false) :=
  spec_c8 ⟨none⟩ ⟨some (Catalog.mk [("Foo", "Book")] [])⟩
    (Except.ok "f: Foo:style=Book") (Except.ok "") () true rfl

/-- C9, counterexample: a caller-supplied name with leading whitespace that
arrives without a comma is used untrimmed as the lookup key, so resolution
differs from the trimmed name: `" A"` resolves to nothing while `"A"`
resolves to a directive. -/
theorem spec_c9_counterexample :
    parseFontNames ["C"] false "" " A" = [" A", "C"] ∧
    pyTrim " A" = "A" ∧
    Font.regular (Catalog.mk [("A", "Book")] []) " A" 14 = "" ∧
    Font.regular (Catalog.mk [("A", "Book")] []) "A" 14 ≠ "" := by
  decide

/-- C9, amended: names supplied inside a comma-separated list are trimmed of
surrounding whitespace before becoming lookup keys, but a single name that
arrives without a comma is used exactly as supplied, untrimmed. -/
theorem spec_c9_amended :
    ∀ (additional : List String) (fs : String),
      (pyIn "," fs = true →
        parseFontNames additional false "" fs = (pySplit fs ",").map pyTrim ++ additional) ∧
      (pyIn "," fs = false →
        parseFontNames additional false "" fs = fs :: additional) := by
  intro additional fs
  constructor
  · intro h
    simp [parseFontNames, h]
  · intro h
    simp [parseFontNames, h]

/-- C9, witness for the amended theorem: the comma path trims each name. -/
theorem spec_c9_witness : parseFontNames ["C"] false "" " A , B " = ["A", "B", "C"] := by
  rw [(spec_c9_amended ["C"] " A , B ").1 (by decide)]
  decide

/-- C10, confirmed: with the default (empty) font specification the assembled
face-name list is the empty name followed by the fixed supplementary fonts,
and — provided the catalog has no entry for the empty name — that face
resolves neither slot and contributes nothing to either joined directive. -/
theorem spec_c10 :
    ∀ (cat : Catalog) (k : Nat), dget cat.regular "" = none → dget cat.bold "" = none →
      _parse_fonts false DEFAULT_FONT = "" :: ADDITIONAL_FONTS ∧
      ADDITIONAL_FONTS = ["Symbola", "Unifont Upper", "DejaVu Sans"] ∧
      Font.regular cat "" k = "" ∧ Font.bold cat "" k = "" ∧
      joinedRegular cat k ("" :: ADDITIONAL_FONTS) = joinedRegular cat k ADDITIONAL_FONTS ∧
      joinedBold cat k ("" :: ADDITIONAL_FONTS) = joinedBold cat k ADDITIONAL_FONTS := by
  intro cat k hr hb
  have h1 : Font.regular cat "" k = "" := by simp [Font.regular, hr]
  have h2 : Font.bold cat "" k = "" := by simp [Font.bold, hb]
  refine ⟨by decide, by decide, h1, h2, ?_, ?_⟩
  · simp [joinedRegular, ADDITIONAL_FONTS, h1]
  · simp [joinedBold, ADDITIONAL_FONTS, h2]

/-- C10, witness at the empty catalog and size 14. -/
theorem spec_c10_witness :
    _parse_fonts false DEFAULT_FONT = "" :: ADDITIONAL_FONTS ∧
    ADDITIONAL_FONTS = ["Symbola", "Unifont Upper", "DejaVu Sans"] ∧
    Font.regular (Catalog.mk [] []) "" 14 = "" ∧
    Font.bold (Catalog.mk [] []) "" 14 = "" ∧
    joinedRegular (Catalog.mk [] []) 14 ("" :: ADDITIONAL_FONTS) =
      joinedRegular (Catalog.mk [] []) 14 ADDITIONAL_FONTS ∧
    joinedBold (Catalog.mk [] []) 14 ("" :: ADDITIONAL_FONTS) =
      joinedBold (Catalog.mk [] []) 14 ADDITIONAL_FONTS :=
  spec_c10 (Catalog.mk [] []) 14 rfl rfl
